import Mathlib

/-!
Verification development for the `httpapi` package: a request-validation and
response-envelope layer for a JSON HTTP API.  The package decodes a JSON
request body into a typed payload, validates the payload against rules
attached to its fields, and writes a standardized response envelope on
failure.

The development shallowly embeds:
- the JSON wire format used by the layer (a model of the behaviour of the
  Go `encoding/json` encoder with HTML escaping enabled, and of its
  decoder, which reads the first JSON value of a stream and leaves the
  remaining bytes untouched);
- the `Response` / `Error` envelope types and the `Write` operation;
- the rule registry (`required` built-in rule, the custom `username` rule,
  and the field-name resolver registered in `init`);
- the validation engine walking the declared fields of a payload; and
- the `Read` operation orchestrating decode, validation and the envelope.

Functions whose defining code lives in the repository source are
translated from it directly.  The validation engine itself lives in the
third-party validator library, which is not part of the source tree; it is
modelled from the specification text, and each such definition carries a
doc comment starting with `Modelled from the spec:`.
-/

namespace Httpapi

/-! ## JSON wire model -/

/-- JSON values as used by this layer: the envelope and the validated
payload types involve strings, booleans, null, arrays and objects.
Object members are kept in order, as the Go encoder emits struct fields in
declaration order.  (Numeric literals are not needed by any payload or
envelope modelled here and are omitted from the grammar.) -/
inductive JValue where
  | null
  | bool (b : Bool)
  | str (s : String)
  | arr (xs : List JValue)
  | obj (ms : List (String × JValue))

/-- Hex digit used in a `\u00xx` escape; the Go encoder emits lowercase. -/
def hexDigitChar (n : Nat) : Char :=
  Char.ofNat (if n < 10 then 48 + n else 87 + n)

/-- Four-digit hexadecimal escape `\uXXXX` for a code point below 0x10000. -/
def escHex (n : Nat) : List Char :=
  ['\\', 'u', hexDigitChar (n / 4096 % 16), hexDigitChar (n / 256 % 16),
   hexDigitChar (n / 16 % 16), hexDigitChar (n % 16)]

/-- Escaping of one character in a JSON string, as performed by the Go
encoder with `SetEscapeHTML(true)`: quote and backslash get a two-character
escape, the common control characters get `\n`, `\r`, `\t`, the remaining
control characters get `\u00XX`, and the HTML-sensitive characters
`<`, `>`, `&` as well as U+2028 and U+2029 get a `\uXXXX` escape.  All
other characters are written unescaped. -/
def escapeChar (c : Char) : List Char :=
  if c = '"' then ['\\', '"']
  else if c = '\\' then ['\\', '\\']
  else if c = '\n' then ['\\', 'n']
  else if c = '\r' then ['\\', 'r']
  else if c = '\t' then ['\\', 't']
  else if c.toNat < 32 || c = '<' || c = '>' || c = '&'
       || c.toNat = 8232 || c.toNat = 8233 then escHex c.toNat
  else [c]

/-- Escaping of a whole string body (without the surrounding quotes). -/
def escapeString : List Char → List Char
  | [] => []
  | c :: cs => escapeChar c ++ escapeString cs

/-- Serialized form of a JSON string, quotes included. -/
def encStr (s : String) : List Char :=
  '"' :: escapeString s.data ++ ['"']

mutual

/-- Serialization of a JSON value, mirroring the output shape of the Go
encoder: no insignificant whitespace, object members and array elements
separated by commas. -/
def encV : JValue → List Char
  | .null => ("null").data
  | .bool true => ("true").data
  | .bool false => ("false").data
  | .str s => encStr s
  | .arr xs => '[' :: encElems xs ++ [']']
  | .obj ms => '\x7b' :: encMembers ms ++ ['\x7d']

/-- Serialization of the comma-separated elements of a JSON array. -/
def encElems : List JValue → List Char
  | [] => []
  | [v] => encV v
  | v :: vs => encV v ++ ',' :: encElems vs

/-- Serialization of the comma-separated members of a JSON object. -/
def encMembers : List (String × JValue) → List Char
  | [] => []
  | [(k, v)] => encStr k ++ ':' :: encV v
  | (k, v) :: ms => encStr k ++ ':' :: encV v ++ ',' :: encMembers ms

end

/-- Value of a hexadecimal digit character, if it is one. -/
def fromHexDigit (c : Char) : Option Nat :=
  if '0' ≤ c ∧ c ≤ '9' then some (c.toNat - 48)
  else if 'a' ≤ c ∧ c ≤ 'f' then some (c.toNat - 87)
  else if 'A' ≤ c ∧ c ≤ 'F' then some (c.toNat - 55)
  else none

/-- Parsing of a JSON string body after the opening quote: returns the
decoded characters and the input remaining after the closing quote.
Handles the escape sequences produced by JSON writers (`\"`, `\\`, `\/`,
`\n`, `\r`, `\t`, `\b`, `\f` and `\uXXXX`). -/
def parseStringBody : List Char → Option (List Char × List Char)
  | [] => none
  | c :: cs =>
    if c = '"' then some ([], cs)
    else if c = '\\' then
      match cs with
      | [] => none
      | e :: cs1 =>
        if e = '"' then (parseStringBody cs1).map (fun p => ('"' :: p.1, p.2))
        else if e = '\\' then (parseStringBody cs1).map (fun p => ('\\' :: p.1, p.2))
        else if e = '/' then (parseStringBody cs1).map (fun p => ('/' :: p.1, p.2))
        else if e = 'n' then (parseStringBody cs1).map (fun p => ('\n' :: p.1, p.2))
        else if e = 'r' then (parseStringBody cs1).map (fun p => ('\r' :: p.1, p.2))
        else if e = 't' then (parseStringBody cs1).map (fun p => ('\t' :: p.1, p.2))
        else if e = 'b' then (parseStringBody cs1).map (fun p => ('\x08' :: p.1, p.2))
        else if e = 'f' then (parseStringBody cs1).map (fun p => ('\x0c' :: p.1, p.2))
        else if e = 'u' then
          match cs1 with
          | h1 :: h2 :: h3 :: h4 :: cs2 =>
            match fromHexDigit h1, fromHexDigit h2, fromHexDigit h3, fromHexDigit h4 with
            | some a, some b, some c3, some d =>
              (parseStringBody cs2).map
                (fun p => (Char.ofNat (((a * 16 + b) * 16 + c3) * 16 + d) :: p.1, p.2))
            | _, _, _, _ => none
          | _ => none
        else none
    else (parseStringBody cs).map (fun p => (c :: p.1, p.2))

/-- Mode of the JSON parser: a whole value, the elements of a non-empty
array after the opening bracket, or the members of a non-empty object
after the opening brace. -/
inductive PMode where
  | val
  | elems
  | membs

/-- Dispatch after an opening bracket: an immediate closing bracket is the
empty array, anything else is a non-empty element list. -/
def arrBody (k : List Char → Option (JValue × List Char)) :
    List Char → Option (JValue × List Char)
  | ']' :: r2 => some (.arr [], r2)
  | r => k r

/-- Dispatch after an opening brace: an immediate closing brace is the
empty object, anything else is a non-empty member list. -/
def objBody (k : List Char → Option (JValue × List Char)) :
    List Char → Option (JValue × List Char)
  | '\x7d' :: r2 => some (.obj [], r2)
  | r => k r

/-- Fuel-bounded JSON parser.  It consumes one JSON value from the front
of the input and returns it together with the unconsumed remainder; it
never inspects the remainder.  This models the behaviour of the Go
`json.Decoder`, whose `Decode` reads the next JSON value from the stream
and leaves everything after it unread. -/
def parseJ : Nat → PMode → List Char → Option (JValue × List Char)
  | 0, _, _ => none
  | fuel + 1, .val, s =>
    match s with
    | 'n' :: 'u' :: 'l' :: 'l' :: r => some (.null, r)
    | 't' :: 'r' :: 'u' :: 'e' :: r => some (.bool true, r)
    | 'f' :: 'a' :: 'l' :: 's' :: 'e' :: r => some (.bool false, r)
    | '"' :: r => (parseStringBody r).map (fun p => (.str ⟨p.1⟩, p.2))
    | '[' :: r => arrBody (parseJ fuel .elems) r
    | '\x7b' :: r => objBody (parseJ fuel .membs) r
    | _ => none
  | fuel + 1, .elems, s =>
    match parseJ fuel .val s with
    | some (v, ',' :: r) =>
      match parseJ fuel .elems r with
      | some (.arr xs, r2) => some (.arr (v :: xs), r2)
      | _ => none
    | some (v, ']' :: r) => some (.arr [v], r)
    | _ => none
  | fuel + 1, .membs, s =>
    match s with
    | '"' :: r =>
      match parseStringBody r with
      | some (k, ':' :: r2) =>
        match parseJ fuel .val r2 with
        | some (v, ',' :: r3) =>
          match parseJ fuel .membs r3 with
          | some (.obj ms, r4) => some (.obj ((⟨k⟩, v) :: ms), r4)
          | _ => none
        | some (v, '\x7d' :: r3) => some (.obj [(⟨k⟩, v)], r3)
        | _ => none
      | _ => none
    | _ => none

/-- Decoding of the first JSON value of a byte stream: the length of the
input plus one is always enough fuel.  Returns the value and the
unconsumed remainder of the stream. -/
def decodeJson (s : List Char) : Option (JValue × List Char) :=
  parseJ (s.length + 1) .val s

/-! ## Response envelope (source: `Response`, `Error`, `Write`) -/

/-- Error represents a scoped error to a user input.  Source fields:
`Field string json:"field"` and `Code string json:"code"`. -/
structure Error where
  field : String
  code : String
deriving DecidableEq

/-- Response represents a generic HTTP response.  Source fields:
`Message string json:"message"` and
`Errors []Error json:"errors,omitempty"`. -/
structure Response where
  message : String
  errors : List Error
deriving DecidableEq

/-- JSON form of one Error value: an object with the external member
names `field` and `code` taken from the struct tags, in declaration
order. -/
def errorToJson (e : Error) : JValue :=
  .obj [("field", .str e.field), ("code", .str e.code)]

/-- JSON form of a Response value.  The `message` member is always
present; because the `Errors` field carries the `omitempty` option, the
`errors` member is omitted whenever the slice is empty. -/
def responseToJson (r : Response) : JValue :=
  .obj (("message", .str r.message) ::
    (if r.errors.isEmpty then []
     else [("errors", .arr (r.errors.map errorToJson))]))

/-- Serialized envelope as produced by `Write`: the JSON encoding of the
response followed by the newline that `Encoder.Encode` appends. -/
def encodeResponseWire (r : Response) : List Char :=
  encV (responseToJson r) ++ ['\n']

/-- One write observed on the outbound channel: the content-type header,
the status code and the body bytes. -/
structure WriteEvent where
  contentType : String
  status : Nat
  body : List Char
deriving DecidableEq

/-- Write outputs a standardized format to an HTTP response body: it
JSON-encodes the response with HTML escaping enabled, sets the
content type header, sets the status code and writes the bytes.  The
fallback plain-text branch of the source is unreachable in this model
because encoding a Response value cannot fail. -/
def Write (status : Nat) (response : Response) : WriteEvent :=
  { contentType := "application/json; charset=utf-8"
    status := status
    body := encodeResponseWire response }

/-! ## Go values and the rule registry -/

/-- Decoded Go field values relevant to the registered rules: strings,
integers, booleans and nil references. -/
inductive GoValue where
  | str (s : String)
  | int (n : Int)
  | bool (b : Bool)
  | null
deriving DecidableEq

/-- Recognizer for values whose underlying type is string. -/
def GoValue.isString : GoValue → Bool
  | .str _ => true
  | _ => false

/-- Character class `[a-zA-Z0-9]` of the username regular expression. -/
def isAlnumChar (c : Char) : Bool :=
  (('a' ≤ c) && (c ≤ 'z')) || (('A' ≤ c) && (c ≤ 'Z')) || (('0' ≤ c) && (c ≤ '9'))

/-- Deterministic matcher for the anchored regular expression
`^[a-zA-Z0-9]+(?:-[a-zA-Z0-9]+)*$` from the source variable
`usernameRegex`: one or more alphanumeric segments joined by single
hyphens.  The boolean argument records whether the current segment has
seen at least one alphanumeric character. -/
def matchUsername : List Char → Bool → Bool
  | [], seen => seen
  | c :: cs, seen =>
    if isAlnumChar c then matchUsername cs true
    else if c = '-' then
      if seen then matchUsername cs false else false
    else false

/-- Language of `usernameRegex`, anchored at both ends, applied to a
whole string. -/
def usernameRegexMatch (s : String) : Bool :=
  matchUsername s.data false

/-- Custom rule `username` registered in `init`: the field value must be
a string (a value of any other underlying type fails the rule rather than
raising an error), its byte length must be between 1 and 32, and it must
match `usernameRegex`.  Go `len` counts bytes, hence `utf8ByteSize`. -/
def usernameRule (v : GoValue) : Bool :=
  match v with
  | .str str =>
    if str.utf8ByteSize > 32 then false
    else if str.utf8ByteSize < 1 then false
    else usernameRegexMatch str
  | _ => false

/-- Modelled from the spec: the built-in rule `required` of the validator
library (the library is not part of the source tree).  Per the spec it
"fails when the value is the zero/empty value for its type (empty text,
empty container, absent reference)". -/
def requiredRule : GoValue → Bool
  | .str s => s != ""
  | .int n => n != 0
  | .bool b => b
  | .null => false

/-- Modelled from the spec: the Rule Registry, built once during process
initialization and read-only afterwards.  It holds the built-in rule
`required` and the custom rule `username` registered by `init` in the
source. -/
def registry : List (String × (GoValue → Bool)) :=
  [("required", requiredRule), ("username", usernameRule)]

/-- Lookup of a rule predicate by name in the registry. -/
def lookupRule (name : String) : Option (GoValue → Bool) :=
  (registry.find? (fun p => p.1 == name)).map (fun p => p.2)

/-- Evaluation of a named rule on a value: `none` when the rule name is
not registered, otherwise the predicate verdict. -/
def evalRule (name : String) (v : GoValue) : Option Bool :=
  (lookupRule name).map (fun p => p v)

/-! ## Field metadata and naming -/

/-- First comma-separated component of a struct tag value, which is how
`strings.SplitN(tag, ",", 2)[0]` selects the name part of the `json`
tag. -/
def tagHead (tag : String) : String :=
  ⟨tag.data.takeWhile (fun c => c != ',')⟩

/-- Field namer registered by `init` through `RegisterTagNameFunc`: the
name part of the `json` tag, with the exclusion marker `-` mapped to the
empty sentinel meaning "do not validate or report this field under any
name". -/
def tagNameFunc (jsonTag : String) : String :=
  let name := tagHead jsonTag
  if name = "-" then "" else name

/-- Declared Go types of payload fields modelled here. -/
inductive GoType where
  | str
  | bool
deriving DecidableEq

/-- Declared shape of one payload field: its internal Go identifier, the
value of its `json` struct tag, the rule names attached to it in
attachment order, and its declared type. -/
structure FieldSpec where
  fieldName : String
  jsonTag : String
  rules : List String
  type : GoType
deriving DecidableEq

/-- One populated field of a decoded payload: its declared shape together
with its current value. -/
structure Field where
  decl : FieldSpec
  value : GoValue
deriving DecidableEq

/-! ## Validation engine -/

/-- Modelled from the spec: evaluation of the rules attached to one field
in attachment order (the engine lives in the validator library, absent
from the source tree).  Each rule name is looked up in the registry when
its turn comes; an unregistered name is an engine configuration fault,
reported as an error and not as a Violation; the first failing rule
produces the single Violation of the field and evaluation of the
remaining rules stops. -/
def firstFailure (ext : String) (v : GoValue) : List String → Except String (Option Error)
  | [] => .ok none
  | r :: rs =>
    match evalRule r v with
    | none => .error ("undefined validation rule " ++ r)
    | some true => firstFailure ext v rs
    | some false => .ok (some { field := ext, code := r })

/-- Modelled from the spec: the engine verdict for one declared field.
The external name is resolved through the registered namer first; when it
yields the empty exclusion sentinel the field is skipped entirely — it is
neither validated nor reported under any name. -/
def perField (f : Field) : Except String (Option Error) :=
  let ext := tagNameFunc f.decl.jsonTag
  if ext = "" then .ok none
  else firstFailure ext f.value f.decl.rules

/-- Modelled from the spec: the validation pass over a payload.  Declared
fields are walked in declaration order; each contributes at most one
Violation; a configuration fault propagates as an error. -/
def validateFields : List Field → Except String (List Error)
  | [] => .ok []
  | f :: fs =>
    match perField f with
    | .error e => .error e
    | .ok none => validateFields fs
    | .ok (some viol) =>
      match validateFields fs with
      | .error e => .error e
      | .ok errs => .ok (viol :: errs)

/-- Violation contributed by a single field, with configuration faults
flattened away; used to state that the output of a validation pass lists
the per-field first failures in declaration order. -/
def perFieldViolation (f : Field) : Option Error :=
  match perField f with
  | .ok o => o
  | .error _ => none

/-! ## Body decoding into a payload -/

/-- Zero value of a declared field type, which Go decoding leaves in
place when the body has no member for the field or a null one. -/
def zeroValue : GoType → GoValue
  | .str => .str ""
  | .bool => .bool false

/-- Conversion of a JSON value into a field of a declared type, as
`encoding/json` performs it: `null` leaves the zero value, a matching
type converts, anything else is a type-mismatch decode error. -/
def jvToGo (t : GoType) : JValue → Except String GoValue
  | .null => .ok (zeroValue t)
  | .str s => match t with
    | .str => .ok (.str s)
    | _ => .error "cannot unmarshal string into field"
  | .bool b => match t with
    | .bool => .ok (.bool b)
    | _ => .error "cannot unmarshal bool into field"
  | _ => .error "cannot unmarshal value into field"

/-- External member name used by `encoding/json` for a field: a tag of
exactly `-` excludes the field from serialization, an empty name part
falls back to the Go field name, anything else is the tag name. -/
def jsonFieldName (f : FieldSpec) : Option String :=
  if f.jsonTag = "-" then none
  else if tagHead f.jsonTag = "" then some f.fieldName
  else some (tagHead f.jsonTag)

/-- Lookup of an object member by name; with duplicate keys the decoder
keeps the last value written, hence the reversed search. -/
def lookupMember (ms : List (String × JValue)) (k : String) : Option JValue :=
  (ms.reverse.find? (fun m => m.1 == k)).map (fun m => m.2)

/-- Population of the declared fields of a payload from the members of
the decoded JSON object, per `encoding/json`: absent members leave the
zero value, present members convert by declared type, unknown members are
ignored. -/
def fieldValue (f : FieldSpec) (ms : List (String × JValue)) : Except String GoValue :=
  match jsonFieldName f with
  | none => .ok (zeroValue f.type)
  | some n =>
    match lookupMember ms n with
    | none => .ok (zeroValue f.type)
    | some jv => jvToGo f.type jv

/-- Decoded payload fields for a whole declared shape, in declaration
order; the first conversion error aborts the decode. -/
def decodeFields (shape : List FieldSpec) (ms : List (String × JValue)) :
    Except String (List Field) :=
  match shape with
  | [] => .ok []
  | f :: fs =>
    match fieldValue f ms with
    | .error e => .error e
    | .ok v =>
      match decodeFields fs ms with
      | .error e => .error e
      | .ok rest => .ok ({ decl := f, value := v } :: rest)

/-- Decoding of a request body into a payload of the given shape, as the
source performs it with `json.NewDecoder(r.Body).Decode(value)`: the first
JSON value is read off the stream and any trailing bytes are left
unread; a stream that does not start with a JSON value is a decode error,
and a value that is not an object cannot populate a struct. -/
def decodeInto (shape : List FieldSpec) (body : List Char) :
    Except String (List Field) :=
  match decodeJson body with
  | none => .error "invalid JSON value in body"
  | some (v, _) =>
    match v with
    | .obj ms => decodeFields shape ms
    | _ => .error "cannot unmarshal non-object into struct"

/-! ## Read -/

/-- Outcome of `Read`: the boolean it returns together with every write
it performed on the outbound channel (none on success). -/
structure ReadResult where
  ok : Bool
  writes : List WriteEvent
deriving DecidableEq

/-- Read decodes JSON from the HTTP request into the value provided and
validates it, translated from the source: a decode error yields a 400
envelope whose message embeds the decode diagnostic and no violations; a
validation-errors result yields a 400 envelope with the fixed message and
the violation list; any other validation error yields a 500 envelope; and
on success nothing is written and true is returned. -/
def Read (shape : List FieldSpec) (body : List Char) : ReadResult :=
  match decodeInto shape body with
  | .error e =>
    { ok := false, writes := [Write 400 { message := "read body: " ++ e, errors := [] }] }
  | .ok fields =>
    match validateFields fields with
    | .ok [] => { ok := true, writes := [] }
    | .ok errs =>
      { ok := false, writes := [Write 400 { message := "Validation failed", errors := errs }] }
    | .error e =>
      { ok := false, writes := [Write 500 { message := "validation: " ++ e, errors := [] }] }

/-- Presence of a member in the serialized form of an envelope: the body
is decoded back as JSON and its top-level object searched for the key. -/
def wireHasMember (s : List Char) (key : String) : Bool :=
  match decodeJson s with
  | some (.obj ms, _) => ms.any (fun m => m.1 == key)
  | _ => false

/-- Decoding of a JSON value into a Go string field: strings convert,
null leaves the zero value, anything else is a type mismatch. -/
def stringFromJson : JValue → Option String
  | .str s => some s
  | .null => some ""
  | _ => none

/-- String member of an object by key, with the Go decoding convention
that an absent member leaves the zero value. -/
def memberString (ms : List (String × JValue)) (k : String) : Option String :=
  match lookupMember ms k with
  | none => some ""
  | some j => stringFromJson j

/-- Decoding of one serialized Violation back into an Error value. -/
def errorFromJson : JValue → Option Error
  | .obj ms =>
    match memberString ms ("field"), memberString ms ("code") with
    | some f, some c => some { field := f, code := c }
    | _, _ => none
  | .null => some { field := "", code := "" }
  | _ => none

/-- Decoding of a list of serialized Violations. -/
def errorsFromJson : List JValue → Option (List Error)
  | [] => some []
  | j :: js =>
    match errorFromJson j, errorsFromJson js with
    | some e, some es => some (e :: es)
    | _, _ => none

/-- The `errors` member of a serialized envelope: absent or null means
the zero value (no violations), an array decodes element-wise, anything
else is a type mismatch. -/
def membErrors (ms : List (String × JValue)) : Option (List Error) :=
  match lookupMember ms ("errors") with
  | none => some []
  | some (.arr js) => errorsFromJson js
  | some .null => some []
  | some _ => none

/-- Decoding of a serialized envelope back into a Response value, as the
Go decoder populates a `Response` struct from a JSON object. -/
def responseFromJson : JValue → Option Response
  | .obj ms =>
    match memberString ms ("message"), membErrors ms with
    | some m, some es => some { message := m, errors := es }
    | _, _ => none
  | _ => none

/-- Deserialization of an envelope from the wire: read the first JSON
value of the stream and decode it as a Response. -/
def decodeResponseWire (s : List Char) : Option Response :=
  match decodeJson s with
  | some (jv, _) => responseFromJson jv
  | none => none

/-! ## Round trip of the string escaping -/

theorem fromHex_toHex (d : Nat) (h : d < 16) : fromHexDigit (hexDigitChar d) = some d := by
  interval_cases d <;> rfl

theorem fromHex_toHex_mod (n : Nat) :
    fromHexDigit (hexDigitChar (n % 16)) = some (n % 16) :=
  fromHex_toHex _ (Nat.mod_lt _ (by norm_num))

theorem escaped_lt (c : Char)
    (h : (c.toNat < 32 || c = '<' || c = '>' || c = '&'
       || c.toNat = 8232 || c.toNat = 8233) = true) : c.toNat < 65536 := by
  simp only [Bool.or_eq_true, decide_eq_true_eq] at h
  rcases h with ((((h | h) | h) | h) | h) | h
  · omega
  · subst h; decide
  · subst h; decide
  · subst h; decide
  · omega
  · omega

theorem parseStringBody_escapeChar (c : Char) (rest : List Char) :
    parseStringBody (escapeChar c ++ rest)
      = (parseStringBody rest).map (fun p => (c :: p.1, p.2)) := by
  unfold escapeChar
  split_ifs with h1 h2 h3 h4 h5 h6
  · subst h1
    rw [show ['\\', '"'] ++ rest = '\\' :: '"' :: rest from rfl, parseStringBody.eq_def]
    simp
  · subst h2
    rw [show ['\\', '\\'] ++ rest = '\\' :: '\\' :: rest from rfl, parseStringBody.eq_def]
    simp
  · subst h3
    rw [show ['\\', 'n'] ++ rest = '\\' :: 'n' :: rest from rfl, parseStringBody.eq_def]
    simp
  · subst h4
    rw [show ['\\', 'r'] ++ rest = '\\' :: 'r' :: rest from rfl, parseStringBody.eq_def]
    simp
  · subst h5
    rw [show ['\\', 't'] ++ rest = '\\' :: 't' :: rest from rfl, parseStringBody.eq_def]
    simp
  · have hb : c.toNat < 65536 := escaped_lt c h6
    have hesc : escHex c.toNat ++ rest
        = '\\' :: 'u' :: hexDigitChar (c.toNat / 4096 % 16) :: hexDigitChar (c.toNat / 256 % 16)
          :: hexDigitChar (c.toNat / 16 % 16) :: hexDigitChar (c.toNat % 16) :: rest := rfl
    rw [hesc, parseStringBody.eq_def]
    have harith : ((c.toNat / 4096 % 16 * 16 + c.toNat / 256 % 16) * 16
        + c.toNat / 16 % 16) * 16 + c.toNat % 16 = c.toNat := by omega
    simp [fromHex_toHex_mod, harith, Char.ofNat_toNat]
  · show parseStringBody (c :: rest) = _
    rw [parseStringBody.eq_def]
    simp [h1, h2]

theorem parseStringBody_escapeString (cs : List Char) (g : List Char) :
    parseStringBody (escapeString cs ++ '"' :: g) = some (cs, g) := by
  induction cs with
  | nil =>
    rw [show escapeString [] ++ '"' :: g = '"' :: g from rfl, parseStringBody.eq_def]
    simp
  | cons c cs ih =>
    rw [escapeString, List.append_assoc, parseStringBody_escapeChar, ih]
    rfl

theorem parseStringBody_encKey (k : String) (g : List Char) :
    parseStringBody (escapeString k.data ++ '"' :: g) = some (k.data, g) :=
  parseStringBody_escapeString k.data g

/-! ## Parser step lemmas -/

theorem pj_null (f : Nat) (r : List Char) :
    parseJ (f + 1) .val ('n' :: 'u' :: 'l' :: 'l' :: r) = some (.null, r) := rfl

theorem pj_true (f : Nat) (r : List Char) :
    parseJ (f + 1) .val ('t' :: 'r' :: 'u' :: 'e' :: r) = some (.bool true, r) := rfl

theorem pj_false (f : Nat) (r : List Char) :
    parseJ (f + 1) .val ('f' :: 'a' :: 'l' :: 's' :: 'e' :: r) = some (.bool false, r) := rfl

theorem pj_str (f : Nat) (r : List Char) :
    parseJ (f + 1) .val ('"' :: r)
      = (parseStringBody r).map (fun p => (.str ⟨p.1⟩, p.2)) := rfl

theorem pj_arr (f : Nat) (r : List Char) :
    parseJ (f + 1) .val ('[' :: r) = arrBody (parseJ f .elems) r := rfl

theorem pj_obj (f : Nat) (r : List Char) :
    parseJ (f + 1) .val ('\x7b' :: r) = objBody (parseJ f .membs) r := rfl

theorem pj_elems (f : Nat) (s : List Char) :
    parseJ (f + 1) .elems s =
      match parseJ f .val s with
      | some (v, ',' :: r) =>
        match parseJ f .elems r with
        | some (.arr xs, r2) => some (.arr (v :: xs), r2)
        | _ => none
      | some (v, ']' :: r) => some (.arr [v], r)
      | _ => none := rfl

theorem pj_membs (f : Nat) (r : List Char) :
    parseJ (f + 1) .membs ('"' :: r) =
      match parseStringBody r with
      | some (k, ':' :: r2) =>
        match parseJ f .val r2 with
        | some (v, ',' :: r3) =>
          match parseJ f .membs r3 with
          | some (.obj ms, r4) => some (.obj ((⟨k⟩, v) :: ms), r4)
          | _ => none
        | some (v, '\x7d' :: r3) => some (.obj [(⟨k⟩, v)], r3)
        | _ => none
      | _ => none := rfl

theorem arrBody_ne (k : List Char → Option (JValue × List Char)) (c : Char)
    (t : List Char) (hc : c ≠ ']') : arrBody k (c :: t) = k (c :: t) := by
  unfold arrBody
  split
  · rename_i h; injection h with h1 _; exact absurd h1 hc
  · rfl

theorem objBody_ne (k : List Char → Option (JValue × List Char)) (c : Char)
    (t : List Char) (hc : c ≠ '\x7d') : objBody k (c :: t) = k (c :: t) := by
  unfold objBody
  split
  · rename_i h; injection h with h1 _; exact absurd h1 hc
  · rfl

/-! ## Shape of encoded values -/

theorem encV_head (v : JValue) : ∃ c t, encV v = c :: t ∧ c ≠ ']' := by
  cases v with
  | null => exact ⟨'n', ['u', 'l', 'l'], rfl, by decide⟩
  | bool b =>
    cases b
    · exact ⟨'f', ['a', 'l', 's', 'e'], rfl, by decide⟩
    · exact ⟨'t', ['r', 'u', 'e'], rfl, by decide⟩
  | str s =>
    exact ⟨'"', escapeString s.data ++ ['"'], by simp [encV, encStr], by decide⟩
  | arr xs => exact ⟨'[', encElems xs ++ [']'], by simp [encV], by decide⟩
  | obj ms => exact ⟨'\x7b', encMembers ms ++ ['\x7d'], by simp [encV], by decide⟩

theorem encElems_head (x : JValue) (xs : List JValue) :
    ∃ c t, encElems (x :: xs) = c :: t ∧ c ≠ ']' := by
  obtain ⟨c, t, hct, hc⟩ := encV_head x
  cases xs with
  | nil => exact ⟨c, t, by simp [encElems, hct], hc⟩
  | cons y ys => exact ⟨c, t ++ ',' :: encElems (y :: ys), by simp [encElems, hct], hc⟩

theorem encV_length_pos (v : JValue) : 0 < (encV v).length := by
  obtain ⟨c, t, hct, _⟩ := encV_head v
  simp [hct]

theorem encMembers_head (k : String) (v : JValue) (ms : List (String × JValue)) :
    ∃ t, encMembers ((k, v) :: ms) = '"' :: t := by
  cases ms with
  | nil =>
    exact ⟨(escapeString k.data ++ ['"']) ++ ':' :: encV v, by simp [encMembers, encStr]⟩
  | cons m ms2 =>
    exact ⟨(escapeString k.data ++ ['"']) ++ ':' :: (encV v ++ ',' :: encMembers (m :: ms2)),
      by simp [encMembers, encStr]⟩

/-! ## Round trip: parsing an encoded value, with an arbitrary suffix -/

theorem parseJ_enc : ∀ fuel : Nat,
    (∀ v g, (encV v).length ≤ fuel → parseJ fuel .val (encV v ++ g) = some (v, g)) ∧
    (∀ x xs g, (encElems (x :: xs)).length < fuel →
        parseJ fuel .elems (encElems (x :: xs) ++ ']' :: g) = some (.arr (x :: xs), g)) ∧
    (∀ k v ms g, (encMembers ((k, v) :: ms)).length < fuel →
        parseJ fuel .membs (encMembers ((k, v) :: ms) ++ '\x7d' :: g)
          = some (.obj ((k, v) :: ms), g)) := by
  intro fuel
  induction fuel with
  | zero =>
    refine ⟨?_, ?_, ?_⟩
    · intro v g h
      exact absurd h (by have := encV_length_pos v; omega)
    · intro x xs g h; omega
    · intro k v ms g h; omega
  | succ f ih =>
    obtain ⟨ihV, ihE, ihM⟩ := ih
    refine ⟨?_, ?_, ?_⟩
    · intro v g h
      cases v with
      | null =>
        rw [show encV .null ++ g = 'n' :: 'u' :: 'l' :: 'l' :: g from rfl, pj_null]
      | bool b =>
        cases b
        · rw [show encV (.bool false) ++ g = 'f' :: 'a' :: 'l' :: 's' :: 'e' :: g from rfl,
            pj_false]
        · rw [show encV (.bool true) ++ g = 't' :: 'r' :: 'u' :: 'e' :: g from rfl, pj_true]
      | str s =>
        rw [show encV (.str s) ++ g = '"' :: (escapeString s.data ++ '"' :: g) from
          by simp [encV, encStr], pj_str, parseStringBody_escapeString]
        rfl
      | arr xs =>
        cases xs with
        | nil =>
          rw [show encV (.arr []) ++ g = '[' :: ']' :: g from rfl, pj_arr]
          rfl
        | cons x xs =>
          have hlen : (encV (.arr (x :: xs))).length = (encElems (x :: xs)).length + 2 := by
            simp [encV]
          rw [show encV (.arr (x :: xs)) ++ g = '[' :: (encElems (x :: xs) ++ ']' :: g) from
            by simp [encV], pj_arr]
          obtain ⟨c, t, hct, hc⟩ := encElems_head x xs
          have hrw : encElems (x :: xs) ++ ']' :: g = c :: (t ++ ']' :: g) := by
            rw [hct]; simp
          rw [hrw, arrBody_ne _ _ _ hc, ← hrw]
          exact ihE x xs g (by omega)
      | obj ms =>
        cases ms with
        | nil =>
          rw [show encV (.obj []) ++ g = '\x7b' :: '\x7d' :: g from rfl, pj_obj]
          rfl
        | cons m ms =>
          obtain ⟨k, v⟩ := m
          have hlen : (encV (.obj ((k, v) :: ms))).length
              = (encMembers ((k, v) :: ms)).length + 2 := by
            simp [encV]
          rw [show encV (.obj ((k, v) :: ms)) ++ g
              = '\x7b' :: (encMembers ((k, v) :: ms) ++ '\x7d' :: g) from by simp [encV], pj_obj]
          obtain ⟨t, ht⟩ := encMembers_head k v ms
          have hrw : encMembers ((k, v) :: ms) ++ '\x7d' :: g = '"' :: (t ++ '\x7d' :: g) := by
            rw [ht]; simp
          rw [hrw, objBody_ne _ _ _ (by decide), ← hrw]
          exact ihM k v ms g (by omega)
    · intro x xs g h
      rw [pj_elems]
      cases xs with
      | nil =>
        have hx : (encV x).length ≤ f := by
          have : (encElems [x]).length = (encV x).length := by simp [encElems]
          omega
        rw [show encElems [x] ++ ']' :: g = encV x ++ ']' :: g from by simp [encElems],
          ihV x (']' :: g) hx]
        rfl
      | cons y ys =>
        have hx : (encV x).length ≤ f := by
          simp only [encElems, List.length_append, List.length_cons] at h
          omega
        have hys : (encElems (y :: ys)).length < f := by
          simp only [encElems, List.length_append, List.length_cons] at h
          omega
        rw [show encElems (x :: y :: ys) ++ ']' :: g
            = encV x ++ (',' :: (encElems (y :: ys) ++ ']' :: g)) from by simp [encElems],
          ihV x _ hx]
        simp [ihE y ys g hys]
    · intro k v ms g h
      cases ms with
      | nil =>
        have hv : (encV v).length ≤ f := by
          simp only [encMembers, encStr, List.length_append, List.length_cons] at h
          omega
        rw [show encMembers [(k, v)] ++ '\x7d' :: g
            = '"' :: (escapeString k.data ++ '"' :: (':' :: (encV v ++ '\x7d' :: g))) from
            by simp [encMembers, encStr],
          pj_membs, parseStringBody_escapeString]
        simp [ihV v _ hv]
      | cons m ms2 =>
        obtain ⟨k2, v2⟩ := m
        have hv : (encV v).length ≤ f := by
          simp only [encMembers, encStr, List.length_append, List.length_cons] at h
          omega
        have hms : (encMembers ((k2, v2) :: ms2)).length < f := by
          simp only [encMembers, encStr, List.length_append, List.length_cons] at h
          omega
        rw [show encMembers ((k, v) :: (k2, v2) :: ms2) ++ '\x7d' :: g
            = '"' :: (escapeString k.data ++ '"'
                :: (':' :: (encV v ++ ',' :: (encMembers ((k2, v2) :: ms2) ++ '\x7d' :: g))))
            from by simp [encMembers, encStr],
          pj_membs, parseStringBody_escapeString]
        simp [ihV v _ hv, ihM k2 v2 ms2 g hms]

theorem decodeJson_encV (v : JValue) (g : List Char) :
    decodeJson (encV v ++ g) = some (v, g) := by
  unfold decodeJson
  apply (parseJ_enc _).1
  simp only [List.length_append]
  omega

/-! ## The parser consumes leading input only and ignores what follows it -/

theorem map_cons_eq_some (x : Char) (o : Option (List Char × List Char))
    (cs rest : List Char) :
    o.map (fun p => (x :: p.1, p.2)) = some (cs, rest)
      ↔ ∃ cs0, o = some (cs0, rest) ∧ cs = x :: cs0 := by
  cases o with
  | none => simp
  | some p =>
    obtain ⟨a, b⟩ := p
    constructor
    · intro h
      simp only [Option.map_some'] at h
      obtain ⟨h1, h2⟩ := Prod.mk.inj (Option.some.inj h)
      exact ⟨a, by simp [h2], h1.symm⟩
    · rintro ⟨cs0, h1, rfl⟩
      obtain ⟨h2, h3⟩ := Prod.mk.inj (Option.some.inj h1)
      simp [h2, h3]

theorem psb_quote (cs : List Char) : parseStringBody ('"' :: cs) = some ([], cs) := by
  rw [parseStringBody.eq_def]; simp

theorem psb_esc (e x : Char) (cs : List Char)
    (hx : (e, x) ∈ [('"', '"'), ('\\', '\\'), ('/', '/'), ('n', '\n'), ('r', '\x0d'),
           ('t', '\t'), ('b', '\x08'), ('f', '\x0c')]) :
    parseStringBody ('\\' :: e :: cs)
      = (parseStringBody cs).map (fun p => (x :: p.1, p.2)) := by
  fin_cases hx <;> (rw [parseStringBody.eq_def]; simp)

theorem psb_u (h1 h2 h3 h4 : Char) (cs : List Char) :
    parseStringBody ('\\' :: 'u' :: h1 :: h2 :: h3 :: h4 :: cs)
      = match fromHexDigit h1, fromHexDigit h2, fromHexDigit h3, fromHexDigit h4 with
        | some a, some b, some c3, some d =>
          (parseStringBody cs).map
            (fun p => (Char.ofNat (((a * 16 + b) * 16 + c3) * 16 + d) :: p.1, p.2))
        | _, _, _, _ => none := by
  rw [parseStringBody.eq_def]; simp

theorem psb_raw (c : Char) (cs : List Char) (h1 : c ≠ '"') (h2 : c ≠ '\\') :
    parseStringBody (c :: cs) = (parseStringBody cs).map (fun p => (c :: p.1, p.2)) := by
  rw [parseStringBody.eq_def]; simp [h1, h2]

theorem psb_extend : ∀ (n : Nat) (s cs rest : List Char), s.length ≤ n →
    parseStringBody s = some (cs, rest) →
    ∃ pre, s = pre ++ rest ∧ ∀ g, parseStringBody (pre ++ g) = some (cs, g) := by
  intro n
  induction n with
  | zero =>
    intro s cs rest hl hp
    cases s with
    | nil => simp [parseStringBody] at hp
    | cons c cs0 => simp at hl
  | succ n ih =>
    intro s cs rest hl hp
    cases s with
    | nil => simp [parseStringBody] at hp
    | cons c cs0 =>
      by_cases h1 : c = '"'
      · subst h1
        rw [psb_quote] at hp
        obtain ⟨hcs, hrest⟩ := Prod.mk.inj (Option.some.inj hp)
        exact ⟨['"'], by simp [hrest], fun g => by simpa [← hcs] using psb_quote g⟩
      · by_cases h2 : c = '\\'
        · subst h2
          cases cs0 with
          | nil => simp [parseStringBody] at hp
          | cons e cs1 =>
            have hl1 : cs1.length ≤ n := by simp at hl; omega
            by_cases he : e = '"' ∨ e = '\\' ∨ e = '/' ∨ e = 'n' ∨ e = 'r' ∨ e = 't'
                ∨ e = 'b' ∨ e = 'f'
            · have hx : ∃ x, ∀ cs, parseStringBody ('\\' :: e :: cs)
                  = (parseStringBody cs).map (fun p => (x :: p.1, p.2)) := by
                rcases he with h | h | h | h | h | h | h | h <;> subst h
                · exact ⟨'"', fun cs => psb_esc _ _ _ (by decide)⟩
                · exact ⟨'\\', fun cs => psb_esc _ _ _ (by decide)⟩
                · exact ⟨'/', fun cs => psb_esc _ _ _ (by decide)⟩
                · exact ⟨'\n', fun cs => psb_esc _ _ _ (by decide)⟩
                · exact ⟨'\x0d', fun cs => psb_esc _ _ _ (by decide)⟩
                · exact ⟨'\t', fun cs => psb_esc _ _ _ (by decide)⟩
                · exact ⟨'\x08', fun cs => psb_esc _ _ _ (by decide)⟩
                · exact ⟨'\x0c', fun cs => psb_esc _ _ _ (by decide)⟩
              obtain ⟨x, hx⟩ := hx
              rw [hx cs1, map_cons_eq_some] at hp
              obtain ⟨cs2, hp0, rfl⟩ := hp
              obtain ⟨pre0, heq, hall⟩ := ih cs1 cs2 rest hl1 hp0
              refine ⟨'\\' :: e :: pre0, by simp [heq], fun g => ?_⟩
              rw [show ('\\' :: e :: pre0) ++ g = '\\' :: e :: (pre0 ++ g) from rfl,
                hx (pre0 ++ g), hall g]
              rfl
            · by_cases hu : e = 'u'
              · subst hu
                rcases cs1 with _ | ⟨a1, _ | ⟨a2, _ | ⟨a3, _ | ⟨a4, cs2⟩⟩⟩⟩
                · rw [parseStringBody.eq_def] at hp; simp at hp
                · rw [parseStringBody.eq_def] at hp; simp at hp
                · rw [parseStringBody.eq_def] at hp; simp at hp
                · rw [parseStringBody.eq_def] at hp; simp at hp
                · rw [psb_u] at hp
                  split at hp
                  next a b c3 d hfa hfb hfc hfd =>
                    rw [map_cons_eq_some] at hp
                    obtain ⟨cs3, hp0, rfl⟩ := hp
                    have hl2 : cs2.length ≤ n := by simp at hl; omega
                    obtain ⟨pre0, heq, hall⟩ := ih cs2 cs3 rest hl2 hp0
                    refine ⟨'\\' :: 'u' :: a1 :: a2 :: a3 :: a4 :: pre0,
                      by simp [heq], fun g => ?_⟩
                    rw [show ('\\' :: 'u' :: a1 :: a2 :: a3 :: a4 :: pre0) ++ g
                        = '\\' :: 'u' :: a1 :: a2 :: a3 :: a4 :: (pre0 ++ g) from rfl,
                      psb_u, hfa, hfb, hfc, hfd, hall g]
                    rfl
                  all_goals simp at hp
              · exfalso
                push_neg at he
                obtain ⟨ne1, ne2, ne3, ne4, ne5, ne6, ne7, ne8⟩ := he
                rw [parseStringBody.eq_def] at hp
                simp [ne1, ne2, ne3, ne4, ne5, ne6, ne7, ne8, hu] at hp
        · rw [psb_raw c cs0 h1 h2, map_cons_eq_some] at hp
          obtain ⟨cs2, hp0, rfl⟩ := hp
          have hl1 : cs0.length ≤ n := by simp at hl; omega
          obtain ⟨pre0, heq, hall⟩ := ih cs0 cs2 rest hl1 hp0
          refine ⟨c :: pre0, by simp [heq], fun g => ?_⟩
          rw [show (c :: pre0) ++ g = c :: (pre0 ++ g) from rfl, psb_raw c _ h1 h2, hall g]
          rfl

theorem parseJ_val_nil (f : Nat) : parseJ f .val [] = none := by
  cases f <;> rfl

theorem parseJ_nil (f : Nat) (mode : PMode) : parseJ f mode [] = none := by
  cases f with
  | zero => rfl
  | succ f =>
    cases mode with
    | val => rfl
    | elems => rw [pj_elems, parseJ_val_nil]
    | membs => rfl

theorem parseJ_extend : ∀ (fuel : Nat) (mode : PMode) (s : List Char) (v : JValue)
    (rest : List Char), parseJ fuel mode s = some (v, rest) →
    ∃ pre, pre ≠ [] ∧ s = pre ++ rest ∧
      ∀ g fuel2, fuel ≤ fuel2 → parseJ fuel2 mode (pre ++ g) = some (v, g) := by
  intro fuel
  induction fuel with
  | zero =>
    intro mode s v rest hp
    simp [parseJ] at hp
  | succ f ih =>
    intro mode s v rest hp
    have hs2 : ∀ fuel2, f + 1 ≤ fuel2 → ∃ f2, fuel2 = f2 + 1 ∧ f ≤ f2 := by
      intro fuel2 h2
      exact ⟨fuel2 - 1, by omega, by omega⟩
    cases mode with
    | val =>
      rw [parseJ.eq_def] at hp
      simp only [] at hp
      split at hp
      · obtain ⟨hv, hrest⟩ := Prod.mk.inj (Option.some.inj hp)
        refine ⟨['n', 'u', 'l', 'l'], by simp, by simp [hrest], ?_⟩
        intro g fuel2 hf2
        obtain ⟨f2, rfl, _⟩ := hs2 fuel2 hf2
        simpa [← hv] using pj_null f2 g
      · obtain ⟨hv, hrest⟩ := Prod.mk.inj (Option.some.inj hp)
        refine ⟨['t', 'r', 'u', 'e'], by simp, by simp [hrest], ?_⟩
        intro g fuel2 hf2
        obtain ⟨f2, rfl, _⟩ := hs2 fuel2 hf2
        simpa [← hv] using pj_true f2 g
      · obtain ⟨hv, hrest⟩ := Prod.mk.inj (Option.some.inj hp)
        refine ⟨['f', 'a', 'l', 's', 'e'], by simp, by simp [hrest], ?_⟩
        intro g fuel2 hf2
        obtain ⟨f2, rfl, _⟩ := hs2 fuel2 hf2
        simpa [← hv] using pj_false f2 g
      · rename_i r
        cases hps : parseStringBody r with
        | none => rw [hps] at hp; simp at hp
        | some p =>
          obtain ⟨cs, r2⟩ := p
          rw [hps] at hp
          simp only [Option.map_some'] at hp
          obtain ⟨hv, hrest⟩ := Prod.mk.inj (Option.some.inj hp)
          subst hrest
          obtain ⟨preS, heqS, hallS⟩ := psb_extend r.length r cs r2 le_rfl hps
          refine ⟨'"' :: preS, by simp, by simp [heqS], ?_⟩
          intro g fuel2 hf2
          obtain ⟨f2, rfl, _⟩ := hs2 fuel2 hf2
          rw [show ('"' :: preS) ++ g = '"' :: (preS ++ g) from rfl, pj_str, hallS g]
          simp [← hv]
      · rename_i r
        rw [arrBody.eq_def] at hp
        split at hp
        · rename_i r2
          obtain ⟨hv, hrest⟩ := Prod.mk.inj (Option.some.inj hp)
          refine ⟨['[', ']'], by simp, by simp [hrest], ?_⟩
          intro g fuel2 hf2
          obtain ⟨f2, rfl, _⟩ := hs2 fuel2 hf2
          rw [← hv]
          rfl
        · rename_i hnotbr
          obtain ⟨pre0, hne0, heq0, hall0⟩ := ih .elems r v rest hp
          obtain ⟨c, t, rfl⟩ : ∃ c t, pre0 = c :: t := by
            cases pre0 with
            | nil => exact absurd rfl hne0
            | cons c t => exact ⟨c, t, rfl⟩
          have hc : c ≠ ']' := by
            intro hceq
            subst hceq
            exact hnotbr (t ++ rest) (by simpa using heq0)
          refine ⟨'[' :: c :: t, by simp, by simp [heq0], ?_⟩
          intro g fuel2 hf2
          obtain ⟨f2, rfl, hle⟩ := hs2 fuel2 hf2
          rw [show ('[' :: c :: t) ++ g = '[' :: (c :: (t ++ g)) from rfl, pj_arr,
            arrBody_ne _ _ _ hc,
            show c :: (t ++ g) = (c :: t) ++ g from rfl, hall0 g f2 hle]
      · rename_i r
        rw [objBody.eq_def] at hp
        split at hp
        · rename_i r2
          obtain ⟨hv, hrest⟩ := Prod.mk.inj (Option.some.inj hp)
          refine ⟨['\x7b', '\x7d'], by simp, by simp [hrest], ?_⟩
          intro g fuel2 hf2
          obtain ⟨f2, rfl, _⟩ := hs2 fuel2 hf2
          rw [← hv]
          rfl
        · rename_i hnotbr
          obtain ⟨pre0, hne0, heq0, hall0⟩ := ih .membs r v rest hp
          obtain ⟨c, t, rfl⟩ : ∃ c t, pre0 = c :: t := by
            cases pre0 with
            | nil => exact absurd rfl hne0
            | cons c t => exact ⟨c, t, rfl⟩
          have hc : c ≠ '\x7d' := by
            intro hceq
            subst hceq
            exact hnotbr (t ++ rest) (by simpa using heq0)
          refine ⟨'\x7b' :: c :: t, by simp, by simp [heq0], ?_⟩
          intro g fuel2 hf2
          obtain ⟨f2, rfl, hle⟩ := hs2 fuel2 hf2
          rw [show ('\x7b' :: c :: t) ++ g = '\x7b' :: (c :: (t ++ g)) from rfl, pj_obj,
            objBody_ne _ _ _ hc,
            show c :: (t ++ g) = (c :: t) ++ g from rfl, hall0 g f2 hle]
      · simp at hp
    | elems =>
      rw [pj_elems] at hp
      split at hp
      · rename_i v1 r heq1
        split at hp
        · rename_i xs r2 heq2
          obtain ⟨hv, hrest⟩ := Prod.mk.inj (Option.some.inj hp)
          subst hrest
          obtain ⟨pre1, hne1, heqA, hall1⟩ := ih .val s v1 (',' :: r) heq1
          obtain ⟨pre2, hne2, heqB, hall2⟩ := ih .elems r (.arr xs) r2 heq2
          refine ⟨pre1 ++ ',' :: pre2, by simp, by simp [heqA, heqB], ?_⟩
          intro g fuel2 hf2
          obtain ⟨f2, rfl, hle⟩ := hs2 fuel2 hf2
          rw [show (pre1 ++ ',' :: pre2) ++ g = pre1 ++ (',' :: (pre2 ++ g)) from by simp,
            pj_elems, hall1 (',' :: (pre2 ++ g)) f2 hle]
          simp [hall2 g f2 hle, ← hv]
        · simp at hp
      · rename_i v1 r heq1
        obtain ⟨hv, hrest⟩ := Prod.mk.inj (Option.some.inj hp)
        subst hrest
        obtain ⟨pre1, hne1, heqA, hall1⟩ := ih .val s v1 (']' :: r) heq1
        refine ⟨pre1 ++ [']'], by simp, by simp [heqA], ?_⟩
        intro g fuel2 hf2
        obtain ⟨f2, rfl, hle⟩ := hs2 fuel2 hf2
        rw [show (pre1 ++ [']']) ++ g = pre1 ++ (']' :: g) from by simp,
          pj_elems, hall1 (']' :: g) f2 hle]
        simp [← hv]
      · simp at hp
    | membs =>
      rw [parseJ.eq_def] at hp
      simp only [] at hp
      split at hp
      · rename_i r
        split at hp
        · rename_i k0 r2 heqS
          split at hp
          · rename_i v1 r3 heqV
            split at hp
            · rename_i ms r4 heqM
              obtain ⟨hv, hrest⟩ := Prod.mk.inj (Option.some.inj hp)
              subst hrest
              obtain ⟨preS, heqPS, hallS⟩ := psb_extend r.length r k0 (':' :: r2) le_rfl heqS
              obtain ⟨preV, hneV, heqPV, hallV⟩ := ih .val r2 v1 (',' :: r3) heqV
              obtain ⟨preM, hneM, heqPM, hallM⟩ := ih .membs r3 (.obj ms) r4 heqM
              refine ⟨'"' :: (preS ++ ':' :: (preV ++ ',' :: preM)), by simp,
                by simp [heqPS, heqPV, heqPM], ?_⟩
              intro g fuel2 hf2
              obtain ⟨f2, rfl, hle⟩ := hs2 fuel2 hf2
              rw [show ('"' :: (preS ++ ':' :: (preV ++ ',' :: preM))) ++ g
                  = '"' :: (preS ++ (':' :: (preV ++ (',' :: (preM ++ g))))) from by simp,
                pj_membs, hallS (':' :: (preV ++ (',' :: (preM ++ g))))]
              simp [hallV (',' :: (preM ++ g)) f2 hle, hallM g f2 hle, ← hv]
            · simp at hp
          · rename_i v1 r3 heqV
            obtain ⟨hv, hrest⟩ := Prod.mk.inj (Option.some.inj hp)
            subst hrest
            obtain ⟨preS, heqPS, hallS⟩ := psb_extend r.length r k0 (':' :: r2) le_rfl heqS
            obtain ⟨preV, hneV, heqPV, hallV⟩ := ih .val r2 v1 ('\x7d' :: r3) heqV
            refine ⟨'"' :: (preS ++ ':' :: (preV ++ ['\x7d'])), by simp,
              by simp [heqPS, heqPV], ?_⟩
            intro g fuel2 hf2
            obtain ⟨f2, rfl, hle⟩ := hs2 fuel2 hf2
            rw [show ('"' :: (preS ++ ':' :: (preV ++ ['\x7d']))) ++ g
                = '"' :: (preS ++ (':' :: (preV ++ ('\x7d' :: g)))) from by simp,
              pj_membs, hallS (':' :: (preV ++ ('\x7d' :: g)))]
            simp [hallV ('\x7d' :: g) f2 hle, ← hv]
          · simp at hp
        · simp at hp
      · simp at hp

theorem decodeJson_extend (body : List Char) (v : JValue)
    (h : decodeJson body = some (v, [])) (g : List Char) :
    decodeJson (body ++ g) = some (v, g) := by
  unfold decodeJson at h ⊢
  obtain ⟨pre, hne, heq, hall⟩ := parseJ_extend (body.length + 1) .val body v [] h
  have hb : body = pre := by simpa using heq
  subst hb
  exact hall g ((body ++ g).length + 1) (by simp)

/-! ## Round trip of the envelope encoding -/

theorem errorFromJson_toJson (e : Error) : errorFromJson (errorToJson e) = some e := rfl

theorem errorsFromJson_map (es : List Error) :
    errorsFromJson (es.map errorToJson) = some es := by
  induction es with
  | nil => rfl
  | cons e es ih => simp [errorsFromJson, errorFromJson_toJson, ih]

theorem responseFromJson_toJson (r : Response) :
    responseFromJson (responseToJson r) = some r := by
  obtain ⟨m, es⟩ := r
  unfold responseToJson
  cases es with
  | nil => rfl
  | cons e es =>
    simp only [List.isEmpty_cons, if_false, Bool.false_eq_true]
    unfold responseFromJson memberString membErrors lookupMember
    simp [List.find?, stringFromJson, errorsFromJson, errorFromJson_toJson,
      errorsFromJson_map]

/-! ## Validation engine lemmas -/

theorem firstFailure_field (ext : String) (v : GoValue) :
    ∀ (rs : List String) (e : Error), firstFailure ext v rs = .ok (some e) → e.field = ext := by
  intro rs
  induction rs with
  | nil => intro e h; simp [firstFailure] at h
  | cons r rs ih =>
    intro e h
    rw [firstFailure.eq_def] at h
    simp only [] at h
    split at h
    · simp at h
    · exact ih e h
    · obtain he := Option.some.inj (Except.ok.inj h)
      rw [← he]

theorem validateFields_filter (p : List Field) :
    validateFields p
      = validateFields (p.filter (fun f => tagNameFunc f.decl.jsonTag != "")) := by
  induction p with
  | nil => rfl
  | cons f fs ih =>
    by_cases hx : tagNameFunc f.decl.jsonTag = ""
    · have hox : perField f = .ok none := by simp [perField, hx]
      rw [show (f :: fs).filter (fun f => tagNameFunc f.decl.jsonTag != "")
          = fs.filter (fun f => tagNameFunc f.decl.jsonTag != "") from by simp [hx],
        validateFields, hox, ← ih]
    · rw [show (f :: fs).filter (fun f => tagNameFunc f.decl.jsonTag != "")
          = f :: fs.filter (fun f => tagNameFunc f.decl.jsonTag != "") from by
            rw [List.filter_cons]; simp [hx]]
      rw [validateFields, validateFields, ← ih]

theorem validateFields_ok_field_ne (p : List Field) :
    ∀ (errs : List Error), validateFields p = .ok errs →
      ∀ e ∈ errs, e.field ≠ "" := by
  induction p with
  | nil =>
    intro errs h e he
    obtain rfl : ([] : List Error) = errs := Except.ok.inj h
    simp at he
  | cons f fs ih =>
    intro errs h e he
    rw [validateFields.eq_def] at h
    simp only [] at h
    split at h
    · simp at h
    · exact ih errs h e he
    · rename_i viol hpf
      split at h
      · simp at h
      · rename_i errs2 hv2
        obtain rfl : viol :: errs2 = errs := Except.ok.inj h
        rcases List.mem_cons.mp he with rfl | hmem
        · by_cases hne : tagNameFunc f.decl.jsonTag = ""
          · simp [perField, hne] at hpf
          · have hpf2 : firstFailure (tagNameFunc f.decl.jsonTag) f.value f.decl.rules
                = .ok (some e) := by
              simpa [perField, hne] using hpf
            rw [firstFailure_field _ _ _ _ hpf2]
            exact hne
        · exact ih errs2 hv2 e hmem

theorem firstFailure_first_wins (ext : String) (v : GoValue) :
    ∀ (pre : List String) (rname : String) (post : List String),
      (∀ r2 ∈ pre, evalRule r2 v = some true) →
      evalRule rname v = some false →
      firstFailure ext v (pre ++ rname :: post) = .ok (some { field := ext, code := rname }) := by
  intro pre
  induction pre with
  | nil =>
    intro rname post hpre hr
    rw [show ([] : List String) ++ rname :: post = rname :: post from rfl,
      firstFailure.eq_def]
    simp [hr]
  | cons r2 pre ih =>
    intro rname post hpre hr
    rw [show (r2 :: pre) ++ rname :: post = r2 :: (pre ++ rname :: post) from rfl,
      firstFailure.eq_def]
    have h2 : evalRule r2 v = some true := hpre r2 (by simp)
    simp only [h2]
    exact ih rname post (fun r3 h3 => hpre r3 (by simp [h3])) hr

theorem validateFields_length (p : List Field) :
    ∀ (errs : List Error), validateFields p = .ok errs → errs.length ≤ p.length := by
  induction p with
  | nil =>
    intro errs h
    obtain rfl : ([] : List Error) = errs := Except.ok.inj h
    simp
  | cons f fs ih =>
    intro errs h
    rw [validateFields.eq_def] at h
    simp only [] at h
    split at h
    · simp at h
    · have := ih errs h
      simp
      omega
    · split at h
      · simp at h
      · rename_i errs2 hv2
        obtain rfl : _ :: errs2 = errs := Except.ok.inj h
        have := ih errs2 hv2
        simp
        omega

theorem validateFields_filterMap (p : List Field) :
    ∀ (errs : List Error), validateFields p = .ok errs →
      errs = p.filterMap perFieldViolation := by
  induction p with
  | nil =>
    intro errs h
    obtain rfl : ([] : List Error) = errs := Except.ok.inj h
    rfl
  | cons f fs ih =>
    intro errs h
    rw [validateFields.eq_def] at h
    simp only [] at h
    split at h
    · simp at h
    · rename_i hpf
      rw [List.filterMap_cons, show perFieldViolation f = none from by
        unfold perFieldViolation; rw [hpf]]
      exact ih errs h
    · rename_i viol hpf
      split at h
      · simp at h
      · rename_i errs2 hv2
        obtain rfl : viol :: errs2 = errs := Except.ok.inj h
        rw [List.filterMap_cons, show perFieldViolation f = some viol from by
          unfold perFieldViolation; rw [hpf]]
        rw [← ih errs2 hv2]

theorem firstFailure_unknown (ext : String) (v : GoValue) :
    ∀ (pre : List String) (rname : String) (post : List String),
      (∀ r2 ∈ pre, evalRule r2 v ≠ some false) →
      lookupRule rname = none →
      ∃ msg, firstFailure ext v (pre ++ rname :: post) = .error msg := by
  intro pre
  induction pre with
  | nil =>
    intro rname post hpre hr
    have : evalRule rname v = none := by simp [evalRule, hr]
    refine ⟨"undefined validation rule " ++ rname, ?_⟩
    rw [show ([] : List String) ++ rname :: post = rname :: post from rfl,
      firstFailure.eq_def]
    simp [this]
  | cons r2 pre ih =>
    intro rname post hpre hr
    rw [show (r2 :: pre) ++ rname :: post = r2 :: (pre ++ rname :: post) from rfl]
    cases h2 : evalRule r2 v with
    | none =>
      refine ⟨"undefined validation rule " ++ r2, ?_⟩
      rw [firstFailure.eq_def]
      simp [h2]
    | some b =>
      cases b with
      | false => exact absurd h2 (hpre r2 (by simp))
      | true =>
        obtain ⟨msg, hmsg⟩ := ih rname post (fun r3 h3 => hpre r3 (by simp [h3])) hr
        refine ⟨msg, ?_⟩
        rw [firstFailure.eq_def]
        simp only [h2]
        exact hmsg

theorem validateFields_unknown (p1 : List Field) (f : Field) (p2 : List Field)
    (hex : tagNameFunc f.decl.jsonTag ≠ "")
    (pre : List String) (rname : String) (post : List String)
    (hrules : f.decl.rules = pre ++ rname :: post)
    (hpre : ∀ r2 ∈ pre, evalRule r2 f.value ≠ some false)
    (hunk : lookupRule rname = none) :
    ∃ msg, validateFields (p1 ++ f :: p2) = .error msg := by
  have hf : ∃ msg, perField f = .error msg := by
    obtain ⟨msg, hmsg⟩ := firstFailure_unknown (tagNameFunc f.decl.jsonTag) f.value
      pre rname post hpre hunk
    refine ⟨msg, ?_⟩
    unfold perField
    rw [if_neg hex, hrules]
    exact hmsg
  induction p1 with
  | nil =>
    obtain ⟨msg, hmsg⟩ := hf
    refine ⟨msg, ?_⟩
    rw [show ([] : List Field) ++ f :: p2 = f :: p2 from rfl, validateFields.eq_def]
    simp only []
    rw [hmsg]
  | cons f1 p1 ih =>
    obtain ⟨msg, hmsg⟩ := ih
    rw [show (f1 :: p1) ++ f :: p2 = f1 :: (p1 ++ f :: p2) from rfl, validateFields.eq_def]
    cases h1 : perField f1 with
    | error e1 => exact ⟨e1, by simp [h1]⟩
    | ok o =>
      cases o with
      | none => exact ⟨msg, by simp [h1, hmsg]⟩
      | some v1 => exact ⟨msg, by simp [h1, hmsg]⟩

/-! ## Read-level helper lemmas -/

theorem decodeInto_extend (shape : List FieldSpec) (body : List Char) (v : JValue)
    (h : decodeJson body = some (v, [])) (g : List Char) :
    decodeInto shape (body ++ g) = decodeInto shape body := by
  unfold decodeInto
  rw [decodeJson_extend body v h g, h]

theorem read_of_decode_error (shape : List FieldSpec) (body : List Char) (e : String)
    (h : decodeInto shape body = .error e) :
    Read shape body = ⟨false, [Write 400 ⟨"read body: " ++ e, []⟩]⟩ := by
  unfold Read
  rw [h]

/-! ## Claims -/

/-- C1: for every request whose body decodes successfully into the
destination payload and for which no attached validation rule fails, Read
returns true and writes nothing to the response channel: no status code,
no headers and no body bytes are emitted by this layer. -/
theorem read_success_writes_nothing (shape : List FieldSpec) (body : List Char)
    (fields : List Field) (hdec : decodeInto shape body = .ok fields)
    (hval : validateFields fields = .ok []) :
    Read shape body = ⟨true, []⟩ := by
  unfold Read
  rw [hdec]
  simp only []
  rw [hval]

theorem read_success_writes_nothing_witness :
    decodeInto ([⟨"Username", "username", ["required", "username"], .str⟩])
        (("\x7b\"username\":\"alice\"\x7d").data)
      = .ok ([⟨⟨"Username", "username", ["required", "username"], .str⟩, .str ("alice")⟩]) ∧
    validateFields ([⟨⟨"Username", "username", ["required", "username"], .str⟩,
        .str ("alice")⟩]) = .ok [] ∧
    Read ([⟨"Username", "username", ["required", "username"], .str⟩])
        (("\x7b\"username\":\"alice\"\x7d").data) = ⟨true, []⟩ :=
  ⟨rfl, rfl,
    read_success_writes_nothing ([⟨"Username", "username", ["required", "username"], .str⟩])
      (("\x7b\"username\":\"alice\"\x7d").data)
      ([⟨⟨"Username", "username", ["required", "username"], .str⟩, .str ("alice")⟩]) rfl rfl⟩

/-- C2 (counterexample): a payload shape can attach an unregistered rule
name and still produce a 400 validation response rather than a 500,
because first-failure-wins stops evaluating the rules of a field before
the unregistered name is ever looked up. -/
theorem read_unknown_rule_after_failure_400 :
    lookupRule ("nosuchrule") = none ∧
    Read ([⟨"Name", "name", ["required", "nosuchrule"], .str⟩]) (("\x7b\x7d").data)
      = ⟨false, [Write 400 ⟨"Validation failed", [⟨"name", "required"⟩]⟩]⟩ :=
  ⟨rfl, rfl⟩

/-- C2 (amended): for every payload in which the validation pass reaches
an unregistered rule name — some field not excluded by the namer attaches
the name and no rule earlier in its attachment order fails first — Read
reports an engine configuration fault: it writes a response with status
500 and no Violations and returns false; the fault is never reported as a
field Violation. -/
theorem read_unknown_rule_500 (shape : List FieldSpec) (body : List Char)
    (p1 : List Field) (f : Field) (p2 : List Field)
    (pre : List String) (rname : String) (post : List String)
    (hdec : decodeInto shape body = .ok (p1 ++ f :: p2))
    (hex : tagNameFunc f.decl.jsonTag ≠ "")
    (hrules : f.decl.rules = pre ++ rname :: post)
    (hpre : ∀ r2 ∈ pre, evalRule r2 f.value ≠ some false)
    (hunk : lookupRule rname = none) :
    ∃ msg, Read shape body = ⟨false, [Write 500 ⟨"validation: " ++ msg, []⟩]⟩ := by
  obtain ⟨msg, hmsg⟩ := validateFields_unknown p1 f p2 hex pre rname post hrules hpre hunk
  refine ⟨msg, ?_⟩
  unfold Read
  rw [hdec]
  simp only []
  rw [hmsg]

theorem read_unknown_rule_500_witness :
    decodeInto ([⟨"Name", "name", ["nosuchrule"], .str⟩]) (("\x7b\x7d").data)
      = .ok ([⟨⟨"Name", "name", ["nosuchrule"], .str⟩, .str ("")⟩]) ∧
    lookupRule ("nosuchrule") = none ∧
    ∃ msg, Read ([⟨"Name", "name", ["nosuchrule"], .str⟩]) (("\x7b\x7d").data)
      = ⟨false, [Write 500 ⟨"validation: " ++ msg, []⟩]⟩ :=
  ⟨rfl, rfl,
    read_unknown_rule_500 ([⟨"Name", "name", ["nosuchrule"], .str⟩]) (("\x7b\x7d").data)
      [] (⟨⟨"Name", "name", ["nosuchrule"], .str⟩, .str ("")⟩) [] [] ("nosuchrule") []
      rfl (by decide) rfl (by simp) rfl⟩

/-- C3: the username rule passes exactly the strings of byte length 1 to
32 that match the anchored pattern of alphanumeric segments joined by
single hyphens; it accepts the listed examples, rejects the listed
counter-examples, and fails closed on every value whose underlying type is
not a string. -/
theorem username_rule_behaviour :
    (∀ s : String, usernameRule (.str s) = true
        ↔ (1 ≤ s.utf8ByteSize ∧ s.utf8ByteSize ≤ 32 ∧ usernameRegexMatch s = true)) ∧
    (usernameRule (.str ("ab-cd")) = true ∧ usernameRule (.str ("a")) = true
      ∧ usernameRule (.str ("abcdefghijklmnopqrstuvwxyz012345")) = true) ∧
    (usernameRule (.str ("")) = false
      ∧ usernameRule (.str ("abcdefghijklmnopqrstuvwxyz0123456")) = false
      ∧ usernameRule (.str ("-abc")) = false ∧ usernameRule (.str ("abc-")) = false
      ∧ usernameRule (.str ("ab--cd")) = false ∧ usernameRule (.str ("ab_cd")) = false) ∧
    (∀ v : GoValue, GoValue.isString v = false → usernameRule v = false) := by
  refine ⟨?_, by decide, by decide, ?_⟩
  · intro s
    unfold usernameRule
    simp only []
    split_ifs with h1 h2
    · simp only [Bool.false_eq_true, false_iff]
      rintro ⟨ha, hb, hc⟩
      omega
    · simp only [Bool.false_eq_true, false_iff]
      rintro ⟨ha, hb, hc⟩
      omega
    · constructor
      · intro h
        exact ⟨by omega, by omega, h⟩
      · rintro ⟨ha, hb, h⟩
        exact h
  · intro v hv
    cases v <;> simp_all [usernameRule, GoValue.isString]

theorem username_rule_behaviour_witness :
    GoValue.isString (.int (0)) = false ∧ usernameRule (.int (0)) = false :=
  ⟨rfl, username_rule_behaviour.2.2.2 (.int (0)) rfl⟩

/-- C4: a field whose serialization metadata marks it as excluded — the
registered namer resolves it to the empty sentinel — is never validated
and never appears in any Violation under any name: the validation pass is
identical to the pass over the payload with such fields removed, and no
emitted Violation carries the empty sentinel as its field name. -/
theorem excluded_fields_never_reported (p : List Field) :
    validateFields p
        = validateFields (p.filter (fun f => tagNameFunc f.decl.jsonTag != ""))
      ∧ ∀ errs, validateFields p = .ok errs → ∀ e ∈ errs, e.field ≠ "" :=
  ⟨validateFields_filter p, fun errs h e he => validateFields_ok_field_ne p errs h e he⟩

theorem excluded_fields_never_reported_witness :
    validateFields ([⟨⟨"Secret", "-", ["required"], .str⟩, .str ("")⟩,
        ⟨⟨"Name", "name", ["required"], .str⟩, .str ("")⟩])
      = .ok ([⟨"name", "required"⟩]) ∧
    validateFields ([⟨⟨"Secret", "-", ["required"], .str⟩, .str ("")⟩,
        ⟨⟨"Name", "name", ["required"], .str⟩, .str ("")⟩])
      = validateFields (([⟨⟨"Secret", "-", ["required"], .str⟩, .str ("")⟩,
          ⟨⟨"Name", "name", ["required"], .str⟩, .str ("")⟩]).filter
            (fun f => tagNameFunc f.decl.jsonTag != "")) ∧
    ("name" : String) ≠ "" :=
  ⟨rfl,
    (excluded_fields_never_reported ([⟨⟨"Secret", "-", ["required"], .str⟩, .str ("")⟩,
        ⟨⟨"Name", "name", ["required"], .str⟩, .str ("")⟩])).1,
    (excluded_fields_never_reported ([⟨⟨"Secret", "-", ["required"], .str⟩, .str ("")⟩,
        ⟨⟨"Name", "name", ["required"], .str⟩, .str ("")⟩])).2
      ([⟨"name", "required"⟩]) rfl (⟨"name", "required"⟩) (by simp)⟩

/-- C5: evaluation of the rules attached to a field stops at the first
failing rule, producing exactly one Violation whose code is that rule
name, regardless of how many later rules would also fail; and a whole
validation pass never emits more Violations than the payload has fields,
so no field contributes more than one. -/
theorem first_failing_rule_wins :
    (∀ (ext : String) (v : GoValue) (pre : List String) (rname : String)
        (post : List String),
        (∀ r2 ∈ pre, evalRule r2 v = some true) → evalRule rname v = some false →
        firstFailure ext v (pre ++ rname :: post) = .ok (some ⟨ext, rname⟩)) ∧
    (∀ (p : List Field) (errs : List Error),
        validateFields p = .ok errs → errs.length ≤ p.length) :=
  ⟨fun ext v pre rname post h1 h2 => firstFailure_first_wins ext v pre rname post h1 h2,
    fun p errs h => validateFields_length p errs h⟩

theorem first_failing_rule_wins_witness :
    evalRule ("required") (.str ("")) = some false ∧
    evalRule ("username") (.str ("")) = some false ∧
    firstFailure ("name") (.str ("")) (["required", "username"])
      = .ok (some ⟨"name", "required"⟩) ∧
    validateFields ([⟨⟨"Name", "name", ["required", "username"], .str⟩, .str ("")⟩])
      = .ok ([⟨"name", "required"⟩]) ∧
    ([(⟨"name", "required"⟩ : Error)]).length
      ≤ ([⟨⟨"Name", "name", ["required", "username"], .str⟩, .str ("")⟩] : List Field).length :=
  ⟨rfl, rfl,
    (by simpa using first_failing_rule_wins.1 ("name") (.str ("")) ([]) ("required") (["username"]) (by simp) rfl),
    rfl,
    first_failing_rule_wins.2
      ([⟨⟨"Name", "name", ["required", "username"], .str⟩, .str ("")⟩])
      ([⟨"name", "required"⟩]) rfl⟩

/-- C6: when a validation pass succeeds with a list of Violations, that
list is exactly the per-field first failures collected in the payload
field declaration order. -/
theorem violations_in_declaration_order (p : List Field) (errs : List Error)
    (h : validateFields p = .ok errs) : errs = p.filterMap perFieldViolation :=
  validateFields_filterMap p errs h

theorem violations_in_declaration_order_witness :
    validateFields ([⟨⟨"Name", "name", ["required"], .str⟩, .str ("")⟩,
        ⟨⟨"Agree", "agree", ["required"], .bool⟩, .bool false⟩])
      = .ok ([⟨"name", "required"⟩, ⟨"agree", "required"⟩]) ∧
    ([⟨"name", "required"⟩, ⟨"agree", "required"⟩] : List Error)
      = ([⟨⟨"Name", "name", ["required"], .str⟩, .str ("")⟩,
          ⟨⟨"Agree", "agree", ["required"], .bool⟩, .bool false⟩]).filterMap
            perFieldViolation :=
  ⟨rfl,
    violations_in_declaration_order
      ([⟨⟨"Name", "name", ["required"], .str⟩, .str ("")⟩,
        ⟨⟨"Agree", "agree", ["required"], .bool⟩, .bool false⟩])
      ([⟨"name", "required"⟩, ⟨"agree", "required"⟩]) rfl⟩

/-- C7: for every request body that fails to decode, Read writes a
response with status 400 whose envelope has no Violations and a non-empty
message embedding the underlying decode error detail, and returns
false. -/
theorem decode_fault_400 (shape : List FieldSpec) (body : List Char) (e : String)
    (h : decodeInto shape body = .error e) :
    Read shape body = ⟨false, [Write 400 ⟨"read body: " ++ e, []⟩]⟩
      ∧ ("read body: " ++ e) ≠ "" := by
  constructor
  · unfold Read
    rw [h]
  · intro hc
    have h2 := congrArg String.length hc
    rw [String.length_append] at h2
    have h3 : ("read body: " : String).length = 11 := rfl
    have h4 : ("" : String).length = 0 := rfl
    omega

theorem decode_fault_400_witness :
    decodeInto ([] : List FieldSpec) (("\x7b").data) = .error ("invalid JSON value in body") ∧
    Read ([] : List FieldSpec) (("\x7b").data)
      = ⟨false, [Write 400 ⟨"read body: invalid JSON value in body", []⟩]⟩ ∧
    ("read body: invalid JSON value in body" : String) ≠ "" :=
  ⟨rfl, (decode_fault_400 ([]) (("\x7b").data) ("invalid JSON value in body") rfl).1,
    (decode_fault_400 ([]) (("\x7b").data) ("invalid JSON value in body") rfl).2⟩

/-- C8 (counterexample): the decode-fault failure response has an empty
violation list, and because the `Errors` field carries `omitempty` its
serialized envelope does not contain an `errors` member at all. -/
theorem decode_fault_envelope_omits_errors :
    Read ([] : List FieldSpec) (("x").data)
      = ⟨false, [Write 400 ⟨"read body: invalid JSON value in body", []⟩]⟩ ∧
    wireHasMember ((Write 400 ⟨"read body: invalid JSON value in body", []⟩).body) ("errors")
      = false ∧
    wireHasMember ((Write 400 ⟨"read body: invalid JSON value in body", []⟩).body) ("message")
      = true :=
  ⟨rfl, rfl, rfl⟩

/-- C8 (amended): in the serialized wire envelope the `errors` member is
present exactly when the violation list is non-empty, because the field
carries `omitempty`: validation-failure responses carry it, decode-fault
and configuration-fault responses omit it; the `message` member is always
present; and on pure success pass-through no envelope is written at
all. -/
theorem errors_member_iff_violations (status : Nat) (r : Response) :
    wireHasMember ((Write status r).body) ("errors") = !r.errors.isEmpty
      ∧ wireHasMember ((Write status r).body) ("message") = true := by
  have hd : decodeJson ((Write status r).body) = some (responseToJson r, ['\n']) :=
    decodeJson_encV (responseToJson r) (['\n'])
  constructor
  · unfold wireHasMember
    rw [hd]
    unfold responseToJson
    cases he : r.errors.isEmpty <;> simp [he]
  · unfold wireHasMember
    rw [hd]
    unfold responseToJson
    cases he : r.errors.isEmpty <;> simp [he]

/-- C9: serializing an Envelope to the wire format and deserializing the
result yields an Envelope with field-for-field equal `message` and
`errors`. -/
theorem envelope_round_trip (r : Response) :
    decodeResponseWire (encodeResponseWire r) = some r := by
  unfold decodeResponseWire encodeResponseWire
  rw [decodeJson_encV]
  exact responseFromJson_toJson r

/-- C10: a request body consisting of one complete JSON value followed by
arbitrary trailing bytes is not treated as a decode fault: Read decodes
only the first value, and when that value decodes into the destination
payload and passes validation, Read returns true and writes nothing,
silently ignoring the trailing bytes. -/
theorem trailing_bytes_ignored (shape : List FieldSpec) (body : List Char) (v : JValue)
    (g : List Char) (fields : List Field)
    (hbody : decodeJson body = some (v, []))
    (hdec : decodeInto shape body = .ok fields)
    (hval : validateFields fields = .ok []) :
    decodeInto shape (body ++ g) = .ok fields
      ∧ Read shape (body ++ g) = ⟨true, []⟩ := by
  have hde : decodeInto shape (body ++ g) = decodeInto shape body :=
    decodeInto_extend shape body v hbody g
  constructor
  · rw [hde, hdec]
  · unfold Read
    rw [hde, hdec]
    simp only []
    rw [hval]

theorem trailing_bytes_ignored_witness :
    decodeJson (("\x7b\"name\":\"bob\"\x7d").data)
      = some (.obj [("name", .str ("bob"))], []) ∧
    decodeInto ([⟨"Name", "name", ["required"], .str⟩]) (("\x7b\"name\":\"bob\"\x7d").data)
      = .ok ([⟨⟨"Name", "name", ["required"], .str⟩, .str ("bob")⟩]) ∧
    validateFields ([⟨⟨"Name", "name", ["required"], .str⟩, .str ("bob")⟩]) = .ok [] ∧
    decodeInto ([⟨"Name", "name", ["required"], .str⟩])
        ((("\x7b\"name\":\"bob\"\x7d").data) ++ (("this is not JSON").data))
      = .ok ([⟨⟨"Name", "name", ["required"], .str⟩, .str ("bob")⟩]) ∧
    Read ([⟨"Name", "name", ["required"], .str⟩])
        ((("\x7b\"name\":\"bob\"\x7d").data) ++ (("this is not JSON").data)) = ⟨true, []⟩ :=
  ⟨rfl, rfl, rfl,
    (trailing_bytes_ignored ([⟨"Name", "name", ["required"], .str⟩])
      (("\x7b\"name\":\"bob\"\x7d").data) (.obj [("name", .str ("bob"))])
      (("this is not JSON").data)
      ([⟨⟨"Name", "name", ["required"], .str⟩, .str ("bob")⟩]) rfl rfl rfl).1,
    (trailing_bytes_ignored ([⟨"Name", "name", ["required"], .str⟩])
      (("\x7b\"name\":\"bob\"\x7d").data) (.obj [("name", .str ("bob"))])
      (("this is not JSON").data)
      ([⟨⟨"Name", "name", ["required"], .str⟩, .str ("bob")⟩]) rfl rfl rfl).2⟩

end Httpapi
